import Mathlib

/-!
Shallow embedding of the Ostrom Homey app (TypeScript) for specification
verification.  Instants are modelled as integers (epoch milliseconds),
prices and energy amounts as rationals.  Each definition mirrors one
function of the source; the source file and symbol are named in the doc
comment.
-/

namespace Ostrom

/-- Milliseconds in one hour, used by the luxon startOf hour truncation. -/
def millisPerHour : Int := 3600000

/-- Truncation of an epoch-milliseconds instant to the start of its hour,
modelling luxon `time.startOf(hour).toMillis()` (floor to the hour). -/
def startOfHour (t : Int) : Int := millisPerHour * Int.fdiv t millisPerHour

/-- Price point as consumed by `src/lib/Prices.ts`: the `date` field
(parsed to epoch milliseconds) and the `netPrice` field (cents per kWh,
modelled as a rational).  Other fields of the wire format are unused by
the verified operations. -/
structure Price where
  date : Int
  netPrice : ℚ
deriving DecidableEq, Repr

/-- Value type of `src/lib/Prices.ts`: a non-empty list of price points.
The constructor of the TS class rejects empty arrays; the invariant is
carried as a proof field. -/
structure Prices where
  prices : List Price
  nonempty : prices ≠ []

instance : DecidableEq Prices := by
  intro p q
  cases p; cases q
  simp only [Prices.mk.injEq]
  infer_instance

/-- Error message thrown by the `Prices` constructor on an empty array
(`src/lib/Prices.ts` line 16). -/
def emptyArrayError : String := "Prices constructor requires a non-empty array"

/-- Error message thrown by `getPricesForNextNHours` when no point matches
the truncated instant (`src/lib/Prices.ts` line 29). -/
def noPriceFoundError : String := "Could not find price for the given time."

/-- Prices constructor (`src/lib/Prices.ts` lines 10-20): fails on an empty
array, otherwise wraps the list.  The `Array.isArray` check is enforced by
the embedding types. -/
def mkPrices (l : List Price) : Except String Prices :=
  if h : l = [] then .error emptyArrayError else .ok ⟨l, h⟩

/-- JavaScript `array.slice(s, e)` for natural start and end indices:
the elements with index in `[s, e)`, clipped to the array length. -/
def jsSlice (l : List α) (s e : Nat) : List α := (l.take e).drop s

/-- Embedding of `Prices.getPricesForNextNHours(time, hours)`
(`src/lib/Prices.ts` lines 22-33): truncate `time` to the hour, find the
index of the first point whose date equals it, throw if none, otherwise
build a new `Prices` from `prices.slice(index, hours)`. -/
def getPricesForNextNHours (p : Prices) (time : Int) (hours : Nat) : Except String Prices :=
  let hour := startOfHour time
  match p.prices.findIdx? (fun pr => pr.date == hour) with
  | none => .error noPriceFoundError
  | some index => mkPrices (jsSlice p.prices index hours)

/-- Comparator used by `getNLowest` (`src/lib/Prices.ts` line 36):
JavaScript `sort((a, b) => a.netPrice - b.netPrice)` sorts ascending by
net price and is required to be stable; `List.mergeSort` with this `le`
is the stable ascending sort. -/
def lowestLe (a b : Price) : Bool := a.netPrice ≤ b.netPrice

/-- Comparator used by `getNHighest` (`src/lib/Prices.ts` line 41):
JavaScript `sort((a, b) => b.netPrice - a.netPrice)`, descending. -/
def highestLe (a b : Price) : Bool := b.netPrice ≤ a.netPrice

/-- Embedding of `Prices.getNLowest(n)` (`src/lib/Prices.ts` lines 35-38):
stable-sort a copy ascending by net price and wrap the first `n` points. -/
def getNLowest (p : Prices) (n : Nat) : Except String Prices :=
  mkPrices ((p.prices.mergeSort lowestLe).take n)

/-- Embedding of `Prices.getNHighest(n)` (`src/lib/Prices.ts` lines 40-43):
stable-sort a copy descending by net price and wrap the first `n` points. -/
def getNHighest (p : Prices) (n : Nat) : Except String Prices :=
  mkPrices ((p.prices.mergeSort highestLe).take n)

/-- Embedding of `Prices.getPriceAtInstant(time)` (`src/lib/Prices.ts`
lines 45-48): exact lookup of the point whose date equals the truncated
instant; absence yields `none`, never an error. -/
def getPriceAtInstant (p : Prices) (time : Int) : Option Price :=
  p.prices.find? (fun pr => pr.date == startOfHour time)

/-- The `values` field of the `Prices` class (`src/lib/Prices.ts` line 19):
the net prices of the points, in order. -/
def values (p : Prices) : List ℚ := p.prices.map Price.netPrice

/-- Embedding of `Prices.getAverage()` (`src/lib/Prices.ts` lines 50-60):
zero for an (unreachable) empty values list, otherwise the sum of the net
prices divided by their count.  Memoization in `_average` is
observationally the identity and is dropped. -/
def getAverage (p : Prices) : ℚ :=
  if (values p).length = 0 then 0
  else ((values p).foldl (fun acc price => acc + price) 0) / (values p).length

/-- Embedding of `Prices.getLowest()` (`src/lib/Prices.ts` lines 62-68):
`Math.min(...values)`, the minimum of the non-empty values list.
Memoization in `_lowest` is dropped. -/
def getLowest (p : Prices) : ℚ :=
  match values p with
  | [] => 0
  | v :: vs => vs.foldl min v

/-- Embedding of `Prices.getHighest()` (`src/lib/Prices.ts` lines 70-76):
`Math.max(...values)`, the maximum of the non-empty values list.
Memoization in `_highest` is dropped. -/
def getHighest (p : Prices) : ℚ :=
  match values p with
  | [] => 0
  | v :: vs => vs.foldl max v

/-- Time of day as parsed by `parseTime` inside `getPricesBetweenTimes`
(`src/lib/Prices.ts` lines 84-87) from an HH:MM string. -/
structure TimeOfDay where
  hours : Nat
  minutes : Nat
deriving DecidableEq, Repr

/-- Minutes since midnight of a time of day (`src/lib/Prices.ts`
lines 99-100). -/
def minutesSinceMidnight (t : TimeOfDay) : Nat := t.hours * 60 + t.minutes

/-- Minutes since midnight of a price point, from its hour and minute
fields (`src/lib/Prices.ts` lines 94-98).  For an hour-aligned epoch
instant this is the minute-of-day of the timestamp. -/
def priceMinutesSinceMidnight (pr : Price) : Int :=
  (Int.fdiv pr.date 60000) % 1440

/-- Filter predicate of `getPricesBetweenTimes` (`src/lib/Prices.ts`
lines 92-112): minute-of-day inside the window, wrapping past midnight
when the start minute exceeds the end minute. -/
def inWindow (startT endT : TimeOfDay) (pr : Price) : Bool :=
  let m := priceMinutesSinceMidnight pr
  let s : Int := minutesSinceMidnight startT
  let e : Int := minutesSinceMidnight endT
  if s > e then m ≥ s || m ≤ e else m ≥ s && m ≤ e

/-- Embedding of `Prices.getPricesBetweenTimes(startTime, endTime)`
(`src/lib/Prices.ts` lines 82-115): filter the points by minute-of-day
and pass the result to the `Prices` constructor, which rejects an empty
filter result. -/
def getPricesBetweenTimes (p : Prices) (startT endT : TimeOfDay) : Except String Prices :=
  mkPrices (p.prices.filter (inWindow startT endT))

/-- Consumption point as returned by the energy-consumption endpoint
(`src/lib/OstromServerClient.ts`, interface Consumption): the `date`
field (epoch milliseconds) and the kWh delta of that hour. -/
structure Consumption where
  date : Int
  kWh : ℚ
deriving DecidableEq, Repr

/-- Summation `reduce((acc, consumption) => acc + consumption.kWh, 0)`
used by both `initializeTotalUsage` and `updateTotalEnergyConsumption`
in the device file (`src/unnamed/part_000`). -/
def sumKWh (l : List Consumption) : ℚ :=
  l.foldl (fun acc consumption => acc + consumption.kWh) 0

/-- Mutable state of the device that the consumption synchronizer touches:
the `meter_power` capability value (the cumulative meter) and the
`lastFetchedHour` field (`src/unnamed/part_000` lines 378, 724-748). -/
structure DeviceState where
  meter : ℚ
  lastFetchedHour : Option Int
deriving DecidableEq, Repr

/-- Embedding of the device method `initializeTotalUsage`
(`src/unnamed/part_000` lines 548-570), with the fetched historical usage
passed in: an empty result leaves the state untouched; otherwise the
meter capability is set to the sum of all deltas and `lastFetchedHour`
to the date of the last returned point. -/
def initializeTotalUsage (st : DeviceState) (historicalUsage : List Consumption) :
    DeviceState :=
  if historicalUsage = [] then st
  else
    { meter := sumKWh historicalUsage,
      lastFetchedHour := historicalUsage.getLast?.map Consumption.date }

/-- Embedding of the device method `updateTotalEnergyConsumption`
(`src/unnamed/part_000` lines 713-749), with the current instant and the
fetched incremental consumption passed in.  The boolean of the result
records whether the API fetch was issued.  When `lastFetchedHour` is
unset, or equals the current instant truncated to the hour, the method
returns without fetching; an empty fetch result leaves the state
untouched; otherwise the summed deltas are added on top of the re-read
meter value and `lastFetchedHour` advances to the date of the last
returned point. -/
def updateTotalEnergyConsumption (st : DeviceState) (now : Int)
    (fetched : List Consumption) : DeviceState × Bool :=
  match st.lastFetchedHour with
  | none => (st, false)
  | some last =>
    if last = startOfHour now then (st, false)
    else if fetched = [] then (st, true)
    else
      ({ meter := st.meter + sumKWh fetched,
         lastFetchedHour := fetched.getLast?.map Consumption.date }, true)

/-- Start and end instants of the range requested by the incremental
fetch (`src/unnamed/part_000` lines 727-732):
`lastFetchedHour.plus(1 hour).startOf(hour)` through
`now.startOf(hour)`. -/
def incrementalRange (last now : Int) : Int × Int :=
  (startOfHour (last + millisPerHour), startOfHour now)

/-- Predicate `isPriceBelowAverage` of the device file
(`src/unnamed/part_000` lines 45-48): current price at or below the
average scaled down by the percentage. -/
def isPriceBelowAverage (currentPrice averagePrice percentage : ℚ) : Bool :=
  currentPrice ≤ averagePrice * (1 - percentage / 100)

/-- Predicate `isPriceAboveAverage` of the device file
(`src/unnamed/part_000` lines 50-53). -/
def isPriceAboveAverage (currentPrice averagePrice percentage : ℚ) : Bool :=
  currentPrice ≥ averagePrice * (1 + percentage / 100)

/-- Predicate `isPriceAtLowest` of the device file (`src/unnamed/part_000`
lines 55-57): absolute difference below the 0.001 epsilon. -/
def isPriceAtLowest (currentPrice lowestPrice : ℚ) : Bool :=
  |currentPrice - lowestPrice| < 1 / 1000

/-- Predicate `isPriceAtHighest` of the device file (`src/unnamed/part_000`
lines 59-61). -/
def isPriceAtHighest (currentPrice highestPrice : ℚ) : Bool :=
  |currentPrice - highestPrice| < 1 / 1000

/-- Identifiers of the ten flow trigger cards dispatched by
`updatePricingInformation` (`src/unnamed/part_000` lines 689-710). -/
inductive TriggerId where
  | belowAvg
  | aboveAvg
  | atLowest
  | atHighest
  | belowAvgToday
  | aboveAvgToday
  | amongLowest
  | amongHighest
  | atLowestToday
  | atHighestToday
deriving DecidableEq, Repr

/-- Rounding to two decimals, modelling
`parseFloat(x.toFixed(2))` on the capability values
(`src/unnamed/part_000` lines 682-684): round half away from zero is
approximated as floor of the shifted value, exact for the non-tie,
non-negative prices at stake. -/
def round2 (q : ℚ) : ℚ := (⌊q * 100 + 1 / 2⌋ : ℚ) / 100

/-- Outcome of one pricing update cycle: early return on an empty
retrieved list, early return when the current hour is missing from the
series, or a completed update carrying the three written capability
values and the dispatched trigger cards in dispatch order. -/
inductive UpdateOutcome where
  | emptyPriceList
  | missingCurrentPrice
  | updated (currentCap highestCap lowestCap : ℚ) (dispatched : List TriggerId)
deriving DecidableEq, Repr

/-- Embedding of the device method `updatePricingInformation`
(`src/unnamed/part_000` lines 615-711), with the retrieved price list and
the current instant passed in.  An empty list aborts; a missing
current-hour price aborts after `getPriceAtInstant` returns `none`
(no capability write, no trigger); otherwise the three price capabilities
are written and the triggers dispatched: the eight window or
threshold-bearing triggers unconditionally, the two extremum-today
triggers only when their predicate holds. -/
def updatePricingInformation (retrievedPrices : List Price) (now : Int) :
    UpdateOutcome :=
  if h : retrievedPrices = [] then .emptyPriceList
  else
    let prices : Prices := ⟨retrievedPrices, h⟩
    match getPriceAtInstant prices now with
    | none => .missingCurrentPrice
    | some current =>
      let highest := getHighest prices
      let lowest := getLowest prices
      let dispatched : List TriggerId :=
        [.belowAvg, .aboveAvg, .atLowest, .atHighest,
         .belowAvgToday, .aboveAvgToday, .amongLowest, .amongHighest]
        ++ (if isPriceAtLowest current.netPrice lowest then [.atLowestToday] else [])
        ++ (if isPriceAtHighest current.netPrice highest then [.atHighestToday] else [])
      .updated (round2 current.netPrice) (round2 highest) (round2 lowest) dispatched

/-- Trigger cards dispatched by a pricing-update outcome; the aborted
outcomes dispatch nothing. -/
def dispatchedOf : UpdateOutcome → List TriggerId
  | .updated _ _ _ dispatched => dispatched
  | _ => []

/-- Sample series with two hour-aligned points, the second at the start
of hour one. -/
def sample2 : Prices := ⟨[⟨0, 1⟩, ⟨3600000, 2⟩], by simp⟩

/-- Sample series with three hour-aligned points. -/
def sample3 : Prices := ⟨[⟨0, 1⟩, ⟨3600000, 2⟩, ⟨7200000, 3⟩], by simp⟩

/-!
Chunking of `getEnergyConsumption` (`src/lib/OstromServerClient.ts`
lines 189-230).  Instants are modelled here as rational numbers of
calendar years, the coordinate in which both luxon operations of the
source act linearly: `endDate.diff(startDate, years).years` is the
difference and `plus(1 year)` adds one.  Upstream calls are abstracted as
a function from a chunk range to a fallible consumption list.
-/

/-- Chunk ranges produced by the while loop of `getEnergyConsumption`
(`src/lib/OstromServerClient.ts` lines 203-227): starting from
`currentStart = startDate`, each chunk ends at
`min(currentStart + 1 year, endDate)` and the next chunk starts there,
until `currentStart < endDate` fails. -/
def consumptionChunks (startDate endDate : ℚ) : List (ℚ × ℚ) :=
  if h : startDate < endDate then
    (startDate, min (startDate + 1) endDate) ::
      consumptionChunks (min (startDate + 1) endDate) endDate
  else []
termination_by (⌈endDate - startDate⌉ : ℤ).toNat
decreasing_by
  rcases le_or_lt (startDate + 1) endDate with hle | hlt
  · rw [min_eq_left hle]
    have h1 : endDate - (startDate + 1) = endDate - startDate - 1 := by ring
    have h3 : (0 : ℤ) < ⌈endDate - startDate⌉ := Int.ceil_pos.mpr (by linarith)
    have h4 : ⌈endDate - (startDate + 1)⌉ = ⌈endDate - startDate⌉ - 1 := by
      rw [h1, Int.ceil_sub_one]
    omega
  · rw [min_eq_right (le_of_lt hlt)]
    have h3 : (0 : ℤ) < ⌈endDate - startDate⌉ := Int.ceil_pos.mpr (by linarith)
    have h4 : ⌈endDate - endDate⌉ = (0 : ℤ) := by simp
    omega

/-- Sequential execution of the chunk fetches (the loop body of
`getEnergyConsumption`, `src/lib/OstromServerClient.ts` lines 206-227):
results are concatenated in order into `allConsumption`; the first chunk
failure aborts the loop and propagates the error. -/
def runChunks (fetch : ℚ → ℚ → Except String (List Consumption)) :
    List (ℚ × ℚ) → Except String (List Consumption)
  | [] => .ok []
  | (currentStart, currentEnd) :: rest =>
    match fetch currentStart currentEnd with
    | .error err => .error err
    | .ok chunkConsumption =>
      match runChunks fetch rest with
      | .error err => .error err
      | .ok restConsumption => .ok (chunkConsumption ++ restConsumption)

/-- Embedding of `OstromServerClient.getEnergyConsumption`
(`src/lib/OstromServerClient.ts` lines 189-230): a single upstream call
when the span is at most one year, otherwise the sequence of yearly
chunk calls. -/
def getEnergyConsumption (fetch : ℚ → ℚ → Except String (List Consumption))
    (startDate endDate : ℚ) : Except String (List Consumption) :=
  if endDate - startDate ≤ 1 then fetch startDate endDate
  else runChunks fetch (consumptionChunks startDate endDate)

/-!
Rate limiter (`src/server/src/lib/client/ratelimiter.ts`).  The class
configures the external Bottleneck library with a reservoir of 50
replenished every 60 seconds.
-/

/-- The `MAX_REQUESTS_PER_MINUTE` constant of the RateLimiter class
(`src/server/src/lib/client/ratelimiter.ts` line 5). -/
def maxRequestsPerMinute : Nat := 50

/-- The reservoir refresh interval configured on Bottleneck, in
milliseconds (`src/server/src/lib/client/ratelimiter.ts` line 10). -/
def refillIntervalMillis : Nat := 60 * 1000

/-- Modelled from the spec: the execution state of the Bottleneck
reservoir that `RateLimiter` configures (the library itself is outside
the repository).  Spec §4.1: a budget of `tokens` executions remains in
the current fixed window, and calls in excess of the budget queue FIFO
until the next refill rather than failing. -/
structure LimiterState where
  tokens : Nat
  queue : List Nat
deriving DecidableEq, Repr

/-- Modelled from the spec: submission of one wrapped operation within
the current window.  With budget remaining and no queue the operation
begins at once and consumes a token; otherwise it is appended to the
FIFO queue. -/
def submitStep (st : LimiterState) (op : Nat) : LimiterState × List Nat :=
  if 0 < st.tokens ∧ st.queue = [] then ({ st with tokens := st.tokens - 1 }, [op])
  else ({ st with queue := st.queue ++ [op] }, [])

/-- Modelled from the spec: submissions of one window processed in
arrival order, collecting the operations that begin within the window. -/
def processSubmits (st : LimiterState) : List Nat → LimiterState × List Nat
  | [] => (st, [])
  | op :: rest =>
    let s1 := submitStep st op
    let s2 := processSubmits s1.1 rest
    (s2.1, s1.2 ++ s2.2)

/-- Modelled from the spec: the refill at a window boundary replenishes
the budget to `capacity` and immediately starts queued operations in FIFO
order, each consuming a token. -/
def refillStep (capacity : Nat) (st : LimiterState) : LimiterState × List Nat :=
  (⟨capacity - (st.queue.take capacity).length, st.queue.drop capacity⟩,
    st.queue.take capacity)

/-- Modelled from the spec: one full fixed window of the limiter — the
refill at its opening boundary followed by the submissions arriving
during the window; the second component lists every operation that
begins within the window, in start order. -/
def windowRun (capacity : Nat) (st : LimiterState) (arrivals : List Nat) :
    LimiterState × List Nat :=
  let r := refillStep capacity st
  let p := processSubmits r.1 arrivals
  (p.1, r.2 ++ p.2)

/-! Helper lemmas. -/

theorem foldl_min_le (vs : List ℚ) (v : ℚ) : ∀ x ∈ v :: vs, vs.foldl min v ≤ x := by
  induction vs generalizing v with
  | nil => intro x hx; simp at hx; simp [hx]
  | cons w ws ih =>
    intro x hx
    rcases List.mem_cons.mp hx with rfl | hx
    · calc List.foldl min (min x w) ws ≤ min x w := ih (min x w) _ (List.mem_cons_self _ _)
        _ ≤ x := min_le_left _ _
    · rcases List.mem_cons.mp hx with rfl | hx
      · calc List.foldl min (min v x) ws ≤ min v x := ih (min v x) _ (List.mem_cons_self _ _)
          _ ≤ x := min_le_right _ _
      · exact ih (min v w) x (List.mem_cons_of_mem _ hx)

theorem le_foldl_max (vs : List ℚ) (v : ℚ) : ∀ x ∈ v :: vs, x ≤ vs.foldl max v := by
  induction vs generalizing v with
  | nil => intro x hx; simp at hx; simp [hx]
  | cons w ws ih =>
    intro x hx
    rcases List.mem_cons.mp hx with rfl | hx
    · calc x ≤ max x w := le_max_left _ _
        _ ≤ List.foldl max (max x w) ws := ih (max x w) _ (List.mem_cons_self _ _)
    · rcases List.mem_cons.mp hx with rfl | hx
      · calc x ≤ max v x := le_max_right _ _
          _ ≤ List.foldl max (max v x) ws := ih (max v x) _ (List.mem_cons_self _ _)
      · exact ih (max v w) x (List.mem_cons_of_mem _ hx)

theorem foldl_min_mem (vs : List ℚ) (v : ℚ) : vs.foldl min v ∈ v :: vs := by
  induction vs generalizing v with
  | nil => simp
  | cons w ws ih =>
    have h := ih (min v w)
    rcases List.mem_cons.mp h with heq | hmem
    · rw [List.foldl_cons, heq]
      rcases min_choice v w with hc | hc <;> rw [hc]
      · exact List.mem_cons_self _ _
      · exact List.mem_cons_of_mem _ (List.mem_cons_self _ _)
    · exact List.mem_cons_of_mem _ (List.mem_cons_of_mem _ hmem)

theorem foldl_max_mem (vs : List ℚ) (v : ℚ) : vs.foldl max v ∈ v :: vs := by
  induction vs generalizing v with
  | nil => simp
  | cons w ws ih =>
    have h := ih (max v w)
    rcases List.mem_cons.mp h with heq | hmem
    · rw [List.foldl_cons, heq]
      rcases max_choice v w with hc | hc <;> rw [hc]
      · exact List.mem_cons_self _ _
      · exact List.mem_cons_of_mem _ (List.mem_cons_self _ _)
    · exact List.mem_cons_of_mem _ (List.mem_cons_of_mem _ hmem)

theorem mul_length_le_sum (l : List ℚ) (m : ℚ) (h : ∀ x ∈ l, m ≤ x) :
    m * l.length ≤ l.sum := by
  induction l with
  | nil => simp
  | cons x xs ih =>
    have hx := h x (List.mem_cons_self _ _)
    have hxs := ih (fun y hy => h y (List.mem_cons_of_mem _ hy))
    simp only [List.length_cons, List.sum_cons]
    push_cast
    linarith

theorem sum_le_mul_length (l : List ℚ) (m : ℚ) (h : ∀ x ∈ l, x ≤ m) :
    l.sum ≤ m * l.length := by
  induction l with
  | nil => simp
  | cons x xs ih =>
    have hx := h x (List.mem_cons_self _ _)
    have hxs := ih (fun y hy => h y (List.mem_cons_of_mem _ hy))
    simp only [List.length_cons, List.sum_cons]
    push_cast
    linarith

theorem values_ne_nil (p : Prices) : values p ≠ [] := by
  simp only [values, ne_eq, List.map_eq_nil_iff]
  exact p.nonempty

/-- C8: for every successfully constructed Prices series,
`getHighest() ≥ getAverage() ≥ getLowest()`; the average is the sum of
the net prices divided by their count, the lowest is the minimum net
price (a member of the values that bounds them below) and the highest is
the maximum net price (a member that bounds them above). -/
theorem getAverage_between_getLowest_getHighest (p : Prices) :
    getAverage p = (values p).sum / (values p).length ∧
    getLowest p ∈ values p ∧ getHighest p ∈ values p ∧
    (∀ v ∈ values p, getLowest p ≤ v ∧ v ≤ getHighest p) ∧
    getLowest p ≤ getAverage p ∧ getAverage p ≤ getHighest p := by
  obtain ⟨v, vs, hv⟩ := List.exists_cons_of_ne_nil (values_ne_nil p)
  have hlen : (values p).length ≠ 0 := by rw [hv]; simp
  have havg : getAverage p = (values p).sum / (values p).length := by
    rw [getAverage, if_neg hlen, List.sum_eq_foldl]
  have hlow : getLowest p = vs.foldl min v := by rw [getLowest, hv]
  have hhigh : getHighest p = vs.foldl max v := by rw [getHighest, hv]
  have hlowle : ∀ x ∈ values p, getLowest p ≤ x := by
    rw [hv, hlow]; exact foldl_min_le vs v
  have hhighge : ∀ x ∈ values p, x ≤ getHighest p := by
    rw [hv, hhigh]; exact le_foldl_max vs v
  have hlenpos : (0 : ℚ) < (values p).length := by
    have := Nat.pos_of_ne_zero hlen
    exact_mod_cast this
  refine ⟨havg, ?_, ?_, fun x hx => ⟨hlowle x hx, hhighge x hx⟩, ?_, ?_⟩
  · rw [hlow, hv]; exact foldl_min_mem vs v
  · rw [hhigh, hv]; exact foldl_max_mem vs v
  · rw [havg, le_div_iff₀ hlenpos]
    exact mul_length_le_sum (values p) (getLowest p) hlowle
  · rw [havg, div_le_iff₀ hlenpos]
    exact sum_le_mul_length (values p) (getHighest p) hhighge

theorem lowestLe_trans (a b c : Price) (hab : lowestLe a b) (hbc : lowestLe b c) :
    lowestLe a c := by
  simp only [lowestLe, decide_eq_true_eq] at *
  exact le_trans hab hbc

theorem lowestLe_total (a b : Price) : lowestLe a b || lowestLe b a := by
  simp only [lowestLe, Bool.or_eq_true, decide_eq_true_eq]
  exact le_total _ _

theorem highestLe_trans (a b c : Price) (hab : highestLe a b) (hbc : highestLe b c) :
    highestLe a c := by
  simp only [highestLe, decide_eq_true_eq] at *
  exact le_trans hbc hab

theorem highestLe_total (a b : Price) : highestLe a b || highestLe b a := by
  simp only [highestLe, Bool.or_eq_true, decide_eq_true_eq]
  exact le_total _ _

theorem mergeSort_filter_key (l : List Price) (le : Price → Price → Bool)
    (htrans : ∀ a b c, le a b → le b c → le a c)
    (htotal : ∀ a b, le a b || le b a)
    (P : Price → Bool) (hP : ∀ a b, P a → P b → le a b) :
    (l.mergeSort le).filter P = l.filter P := by
  have hfself : (l.filter P).filter P = l.filter P := by
    apply List.filter_eq_self.mpr
    intro a ha
    exact List.of_mem_filter ha
  have h2 : (l.filter P).Pairwise (fun a b => le a b = true) := by
    apply List.pairwise_of_forall_mem_list
    intro a ha b hb
    exact hP a b (List.of_mem_filter ha) (List.of_mem_filter hb)
  have h3 : (l.filter P).Sublist (l.mergeSort le) :=
    List.sublist_mergeSort htrans htotal h2 (List.filter_sublist l)
  have h4 : (l.filter P).Sublist ((l.mergeSort le).filter P) := by
    have := h3.filter P
    rwa [hfself] at this
  have h5 : ((l.mergeSort le).filter P).Perm (l.filter P) :=
    (List.mergeSort_perm l le).filter P
  exact (h4.eq_of_length h5.length_eq.symm).symm

/-- C9: for every series and every `n ≥ 1`, `getNLowest(n)` returns a new
series wrapping the first `min(n, length)` elements of a stable copy-sort
ascending by net price, and `getNHighest(n)` the first `min(n, length)`
of a stable copy-sort descending by net price; the sorts are permutations
of the untouched original, sorted the right way, and points of equal net
price keep their original relative order (the subsequence with any given
net price is unchanged). -/
theorem getNLowest_getNHighest_stable (p : Prices) (n : Nat) (hn : 1 ≤ n) :
    (∃ q, getNLowest p n = .ok q ∧
      q.prices = (p.prices.mergeSort lowestLe).take n ∧
      q.prices.length = min n p.prices.length) ∧
    (∃ q, getNHighest p n = .ok q ∧
      q.prices = (p.prices.mergeSort highestLe).take n ∧
      q.prices.length = min n p.prices.length) ∧
    (p.prices.mergeSort lowestLe).Perm p.prices ∧
    (p.prices.mergeSort lowestLe).Pairwise (fun a b => a.netPrice ≤ b.netPrice) ∧
    (p.prices.mergeSort highestLe).Perm p.prices ∧
    (p.prices.mergeSort highestLe).Pairwise (fun a b => b.netPrice ≤ a.netPrice) ∧
    (∀ c : ℚ, (p.prices.mergeSort lowestLe).filter (fun pr => pr.netPrice == c) =
      p.prices.filter (fun pr => pr.netPrice == c)) ∧
    (∀ c : ℚ, (p.prices.mergeSort highestLe).filter (fun pr => pr.netPrice == c) =
      p.prices.filter (fun pr => pr.netPrice == c)) := by
  have hkey : ∀ (le : Price → Price → Bool), (∀ a b, a.netPrice = b.netPrice → le a b) →
      ∀ c : ℚ, ∀ a b : Price,
        (fun pr => pr.netPrice == c) a → (fun pr => pr.netPrice == c) b → le a b := by
    intro le hle c a b ha hb
    simp only [beq_iff_eq] at ha hb
    exact hle a b (ha.trans hb.symm)
  have hlperm := List.mergeSort_perm p.prices lowestLe
  have hhperm := List.mergeSort_perm p.prices highestLe
  have hlne : p.prices.mergeSort lowestLe ≠ [] := by
    intro h
    exact p.nonempty (List.Perm.eq_nil (h ▸ hlperm).symm)
  have hhne : p.prices.mergeSort highestLe ≠ [] := by
    intro h
    exact p.nonempty (List.Perm.eq_nil (h ▸ hhperm).symm)
  have htakel : (p.prices.mergeSort lowestLe).take n ≠ [] := by
    rw [ne_eq, List.take_eq_nil_iff]
    push_neg
    exact ⟨by omega, hlne⟩
  have htakeh : (p.prices.mergeSort highestLe).take n ≠ [] := by
    rw [ne_eq, List.take_eq_nil_iff]
    push_neg
    exact ⟨by omega, hhne⟩
  refine ⟨⟨⟨_, htakel⟩, ?_, rfl, ?_⟩, ⟨⟨_, htakeh⟩, ?_, rfl, ?_⟩, hlperm, ?_, hhperm, ?_, ?_, ?_⟩
  · rw [getNLowest, mkPrices, dif_neg htakel]
  · rw [List.length_take, hlperm.length_eq]
  · rw [getNHighest, mkPrices, dif_neg htakeh]
  · rw [List.length_take, hhperm.length_eq]
  · have := @List.sorted_mergeSort _ lowestLe lowestLe_trans lowestLe_total p.prices
    exact this.imp (by intro a b h; simpa [lowestLe] using h)
  · have := @List.sorted_mergeSort _ highestLe highestLe_trans highestLe_total p.prices
    exact this.imp (by intro a b h; simpa [highestLe] using h)
  · intro c
    exact mergeSort_filter_key p.prices lowestLe lowestLe_trans lowestLe_total _
      (hkey lowestLe (by intro a b h; simp [lowestLe, h]) c)
  · intro c
    exact mergeSort_filter_key p.prices highestLe highestLe_trans highestLe_total _
      (hkey highestLe (by intro a b h; simp [highestLe, h]) c)

/-- C9 witness: the stable-sort properties instantiated on a concrete
three-point series with `n = 2`, discharging the `n ≥ 1` hypothesis. -/
theorem getNLowest_getNHighest_stable_witness :
    1 ≤ 2 ∧
    ((∃ q, getNLowest ⟨[⟨0, 3⟩, ⟨3600000, 1⟩, ⟨7200000, 3⟩], by simp⟩ 2 = .ok q ∧
      q.prices = ((⟨[⟨0, 3⟩, ⟨3600000, 1⟩, ⟨7200000, 3⟩], by simp⟩ :
        Prices).prices.mergeSort lowestLe).take 2 ∧
      q.prices.length = min 2 (⟨[⟨0, 3⟩, ⟨3600000, 1⟩, ⟨7200000, 3⟩], by simp⟩ :
        Prices).prices.length) ∧
    (∃ q, getNHighest ⟨[⟨0, 3⟩, ⟨3600000, 1⟩, ⟨7200000, 3⟩], by simp⟩ 2 = .ok q ∧
      q.prices = ((⟨[⟨0, 3⟩, ⟨3600000, 1⟩, ⟨7200000, 3⟩], by simp⟩ :
        Prices).prices.mergeSort highestLe).take 2 ∧
      q.prices.length = min 2 (⟨[⟨0, 3⟩, ⟨3600000, 1⟩, ⟨7200000, 3⟩], by simp⟩ :
        Prices).prices.length) ∧
    ((⟨[⟨0, 3⟩, ⟨3600000, 1⟩, ⟨7200000, 3⟩], by simp⟩ :
        Prices).prices.mergeSort lowestLe).Perm (⟨[⟨0, 3⟩, ⟨3600000, 1⟩, ⟨7200000, 3⟩],
        by simp⟩ : Prices).prices ∧
    ((⟨[⟨0, 3⟩, ⟨3600000, 1⟩, ⟨7200000, 3⟩], by simp⟩ :
        Prices).prices.mergeSort lowestLe).Pairwise
      (fun a b => a.netPrice ≤ b.netPrice) ∧
    ((⟨[⟨0, 3⟩, ⟨3600000, 1⟩, ⟨7200000, 3⟩], by simp⟩ :
        Prices).prices.mergeSort highestLe).Perm (⟨[⟨0, 3⟩, ⟨3600000, 1⟩, ⟨7200000, 3⟩],
        by simp⟩ : Prices).prices ∧
    ((⟨[⟨0, 3⟩, ⟨3600000, 1⟩, ⟨7200000, 3⟩], by simp⟩ :
        Prices).prices.mergeSort highestLe).Pairwise
      (fun a b => b.netPrice ≤ a.netPrice) ∧
    (∀ c : ℚ, ((⟨[⟨0, 3⟩, ⟨3600000, 1⟩, ⟨7200000, 3⟩], by simp⟩ :
        Prices).prices.mergeSort lowestLe).filter (fun pr => pr.netPrice == c) =
      (⟨[⟨0, 3⟩, ⟨3600000, 1⟩, ⟨7200000, 3⟩], by simp⟩ :
        Prices).prices.filter (fun pr => pr.netPrice == c)) ∧
    (∀ c : ℚ, ((⟨[⟨0, 3⟩, ⟨3600000, 1⟩, ⟨7200000, 3⟩], by simp⟩ :
        Prices).prices.mergeSort highestLe).filter (fun pr => pr.netPrice == c) =
      (⟨[⟨0, 3⟩, ⟨3600000, 1⟩, ⟨7200000, 3⟩], by simp⟩ :
        Prices).prices.filter (fun pr => pr.netPrice == c))) :=
  ⟨by norm_num,
    getNLowest_getNHighest_stable ⟨[⟨0, 3⟩, ⟨3600000, 1⟩, ⟨7200000, 3⟩], by simp⟩ 2
      (by norm_num)⟩

/-- C10: `getPricesBetweenTimes` throws the empty-array constructor error
whenever no point of the series has a minute-of-day inside the requested
window, because the filtered array is handed to the rejecting `Prices`
constructor. -/
theorem getPricesBetweenTimes_throws_when_window_empty (p : Prices) (startT endT : TimeOfDay)
    (h : ∀ pt ∈ p.prices, ¬inWindow startT endT pt) :
    getPricesBetweenTimes p startT endT = .error emptyArrayError := by
  have hfil : p.prices.filter (inWindow startT endT) = [] := by
    rw [List.filter_eq_nil_iff]
    simpa using h
  rw [getPricesBetweenTimes, hfil, mkPrices, dif_pos rfl]

/-- C10 witness: a non-empty series whose single point sits at 03:00
falls wholly outside the 08:00-14:00 window, so the lookup throws. -/
theorem getPricesBetweenTimes_throws_witness :
    (∀ pt ∈ (⟨[⟨10800000, 5⟩], by simp⟩ : Prices).prices, ¬inWindow ⟨8, 0⟩ ⟨14, 0⟩ pt) ∧
    getPricesBetweenTimes ⟨[⟨10800000, 5⟩], by simp⟩ ⟨8, 0⟩ ⟨14, 0⟩ = .error emptyArrayError := by
  have h : ∀ pt ∈ (⟨[⟨10800000, 5⟩], by simp⟩ : Prices).prices, ¬inWindow ⟨8, 0⟩ ⟨14, 0⟩ pt := by
    intro pt hpt
    simp only [sample2, List.mem_singleton] at hpt
    subst hpt
    decide
  exact ⟨h, getPricesBetweenTimes_throws_when_window_empty _ _ _ h⟩

/-- C1 counterexample: in a two-point series the instant of the second
point is matched at index 1, yet `getPricesForNextNHours(t, 1)` throws the
empty-array constructor error instead of returning a wrapped slice,
because `slice(1, 1)` is empty. -/
theorem getPricesForNextNHours_claim_false :
    sample2.prices.findIdx? (fun pr => pr.date == startOfHour 3600000) = some 1 ∧
    getPricesForNextNHours sample2 3600000 1 = .error emptyArrayError := by
  constructor <;> rfl

/-- C1 amended: `getPricesForNextNHours(time, count)` looks up the first
index whose point has the truncated-to-hour timestamp of `time`; it
throws the no-price error exactly when no point matches; on a match at
`index` it builds a new series from `slice(index, count)` — the slice up
to end-index `count`, not `index + count` — which is returned when that
slice is non-empty and triggers the empty-array constructor error when
`index ≥ count` makes it empty. -/
theorem getPricesForNextNHours_spec (p : Prices) (time : Int) (hours : Nat) :
    (p.prices.findIdx? (fun pr => pr.date == startOfHour time) = none ↔
      ∀ pt ∈ p.prices, pt.date ≠ startOfHour time) ∧
    (p.prices.findIdx? (fun pr => pr.date == startOfHour time) = none →
      getPricesForNextNHours p time hours = .error noPriceFoundError) ∧
    (∀ index, p.prices.findIdx? (fun pr => pr.date == startOfHour time) = some index →
      (jsSlice p.prices index hours ≠ [] →
        ∃ q, getPricesForNextNHours p time hours = .ok q ∧
          q.prices = jsSlice p.prices index hours) ∧
      (jsSlice p.prices index hours = [] →
        getPricesForNextNHours p time hours = .error emptyArrayError)) := by
  refine ⟨?_, ?_, ?_⟩
  · rw [List.findIdx?_eq_none_iff]
    constructor
    · intro h pt hpt
      have := h pt hpt
      simpa using this
    · intro h pt hpt
      simpa using h pt hpt
  · intro h
    rw [getPricesForNextNHours]
    simp only [h]
  · intro index h
    constructor
    · intro hne
      refine ⟨⟨jsSlice p.prices index hours, hne⟩, ?_, rfl⟩
      rw [getPricesForNextNHours]
      simp only [h, mkPrices, dif_neg hne]
    · intro hemp
      rw [getPricesForNextNHours]
      simp [h, hemp, mkPrices]

/-- C1 witness: on the three-point sample with the match at index 1 and
`count = 3` the slice `[index, 3)` is non-empty and is returned wrapped;
the no-match and empty-slice hypotheses of the amended theorem are each
discharged on concrete inputs. -/
theorem getPricesForNextNHours_spec_witness :
    (sample3.prices.findIdx? (fun pr => pr.date == startOfHour 3600000) = some 1 ∧
      jsSlice sample3.prices 1 3 ≠ [] ∧
      ∃ q, getPricesForNextNHours sample3 3600000 3 = .ok q ∧
        q.prices = jsSlice sample3.prices 1 3) ∧
    (sample3.prices.findIdx? (fun pr => pr.date == startOfHour (-3600000)) = none ∧
      getPricesForNextNHours sample3 (-3600000) 3 = .error noPriceFoundError) := by
  have h1 : sample3.prices.findIdx? (fun pr => pr.date == startOfHour 3600000) = some 1 := by rfl
  have hne : jsSlice sample3.prices 1 3 ≠ [] := by simp [sample3, jsSlice]
  have h2 : sample3.prices.findIdx? (fun pr => pr.date == startOfHour (-3600000)) = none := by rfl
  exact ⟨⟨h1, hne, ((getPricesForNextNHours_spec sample3 3600000 3).2.2 1 h1).1 hne⟩,
    ⟨h2, (getPricesForNextNHours_spec sample3 (-3600000) 3).2.1 h2⟩⟩

theorem foldl_add_kWh (l : List Consumption) (a : ℚ) :
    l.foldl (fun acc consumption => acc + consumption.kWh) a = a + sumKWh l := by
  induction l generalizing a with
  | nil => simp [sumKWh]
  | cons c cs ih =>
    have h1 : sumKWh (c :: cs) = (0 + c.kWh) + sumKWh cs := by
      rw [sumKWh, List.foldl_cons, ih]
    rw [List.foldl_cons, ih, h1]
    ring

theorem sumKWh_nonneg (l : List Consumption) (h : ∀ c ∈ l, 0 ≤ c.kWh) :
    0 ≤ sumKWh l := by
  induction l with
  | nil => simp [sumKWh]
  | cons c cs ih =>
    have h1 : sumKWh (c :: cs) = (0 + c.kWh) + sumKWh cs := by
      rw [sumKWh, List.foldl_cons, foldl_add_kWh]
    rw [h1]
    have := h c (List.mem_cons_self _ _)
    have := ih (fun x hx => h x (List.mem_cons_of_mem _ hx))
    linarith

/-- C2: within one current hour the incremental top-up changes the meter
exactly once: when `lastFetchedHour` already equals the current instant
truncated to the hour the call returns without fetching and changes
nothing; an empty fetch result changes nothing; and after a top-up whose
last returned point carries the current hour, a second call in the same
hour returns without fetching, so the meter has moved exactly once, by
the summed deltas. -/
theorem updateTotalEnergyConsumption_same_hour_once (st : DeviceState) (now : Int)
    (fetched f2 : List Consumption) :
    (st.lastFetchedHour = some (startOfHour now) →
      updateTotalEnergyConsumption st now fetched = (st, false)) ∧
    (updateTotalEnergyConsumption st now []).1 = st ∧
    (∀ last, st.lastFetchedHour = some last → last ≠ startOfHour now → fetched ≠ [] →
      fetched.getLast?.map Consumption.date = some (startOfHour now) →
      (updateTotalEnergyConsumption st now fetched).1.meter = st.meter + sumKWh fetched ∧
      updateTotalEnergyConsumption (updateTotalEnergyConsumption st now fetched).1 now f2 =
        ((updateTotalEnergyConsumption st now fetched).1, false)) := by
  refine ⟨?_, ?_, ?_⟩
  · intro h
    simp [updateTotalEnergyConsumption, h]
  · cases hl : st.lastFetchedHour with
    | none => simp [updateTotalEnergyConsumption, hl]
    | some last =>
      by_cases hnow : last = startOfHour now
      · simp [updateTotalEnergyConsumption, hl, hnow]
      · simp [updateTotalEnergyConsumption, hl, hnow]
  · intro last hl hne hfne hlastdate
    have hstep : updateTotalEnergyConsumption st now fetched =
        ({ meter := st.meter + sumKWh fetched,
           lastFetchedHour := fetched.getLast?.map Consumption.date }, true) := by
      simp only [updateTotalEnergyConsumption, hl]
      rw [if_neg hne, if_neg hfne]
    refine ⟨by rw [hstep], ?_⟩
    rw [hstep]
    rw [updateTotalEnergyConsumption]
    simp only [hlastdate]
    simp

/-- C2 witness: starting from hour zero, a top-up fetching the delta of
the current hour adds it once; the immediately following call in the same
hour is a no-op, and the empty-fetch and same-hour hypotheses hold on
these concrete inputs. -/
theorem updateTotalEnergyConsumption_same_hour_once_witness :
    ((⟨5, some 0⟩ : DeviceState).lastFetchedHour = some 0 ∧ (0 : Int) ≠ startOfHour 3600000 ∧
      ([⟨3600000, 2⟩] : List Consumption) ≠ [] ∧
      ([⟨3600000, 2⟩] : List Consumption).getLast?.map Consumption.date =
        some (startOfHour 3600000)) ∧
    (updateTotalEnergyConsumption ⟨5, some 0⟩ 3600000 [⟨3600000, 2⟩]).1.meter =
      5 + sumKWh [⟨3600000, 2⟩] ∧
    updateTotalEnergyConsumption
        (updateTotalEnergyConsumption ⟨5, some 0⟩ 3600000 [⟨3600000, 2⟩]).1 3600000
        [⟨7200000, 9⟩] =
      ((updateTotalEnergyConsumption ⟨5, some 0⟩ 3600000 [⟨3600000, 2⟩]).1, false) := by
  have hsoh : startOfHour 3600000 = 3600000 := by decide
  have h := (updateTotalEnergyConsumption_same_hour_once ⟨5, some 0⟩ 3600000
    [⟨3600000, 2⟩] [⟨7200000, 9⟩]).2.2 0 rfl (by rw [hsoh]; decide) (by simp)
    (by rw [hsoh]; rfl)
  exact ⟨⟨rfl, by rw [hsoh]; decide, by simp, by rw [hsoh]; rfl⟩, h.1, h.2⟩

theorem date_le_getLast (l : List Consumption) :
    l.Pairwise (fun a b => a.date < b.date) →
    ∀ (h : l ≠ []), ∀ c ∈ l, c.date ≤ (l.getLast h).date := by
  induction l with
  | nil => intro _ h; exact absurd rfl h
  | cons c cs ih =>
    intro hs h x hx
    cases cs with
    | nil =>
      simp at hx
      subst hx
      simp
    | cons d ds =>
      rw [List.getLast_cons (by simp : (d :: ds) ≠ [])]
      rcases List.mem_cons.mp hx with rfl | hx2
      · exact le_of_lt (List.rel_of_pairwise_cons hs (List.getLast_mem _))
      · exact ih hs.of_cons (by simp) x hx2

theorem startOfHour_mul (k : Int) : startOfHour (millisPerHour * k) = millisPerHour * k := by
  rw [startOfHour, Int.mul_fdiv_cancel_left _ (by norm_num [millisPerHour])]

theorem aligned_add_hour (t : Int) (h : startOfHour t = t) :
    startOfHour (t + millisPerHour) = t + millisPerHour := by
  have ht : t + millisPerHour = millisPerHour * (Int.fdiv t millisPerHour + 1) := by
    conv_lhs => rw [← h]
    rw [startOfHour]
    ring
  rw [ht, startOfHour_mul]

theorem millisPerHour_pos : (0 : Int) < millisPerHour := by norm_num [millisPerHour]

/-- C4: the cumulative meter is non-decreasing across the lifecycle when
the consumption deltas are non-negative — backfill sets it to the sum of
all historical deltas, an incremental top-up adds the summed deltas on
top of the re-read value — and no hour is folded in twice: every point
folded by a top-up lies strictly after the previous `lastFetchedHour`,
and the points folded by two consecutive top-ups whose fetches respect
the requested ranges carry pairwise distinct hours. -/
theorem meter_monotone_no_double_fold (st : DeviceState) (now now2 : Int)
    (historicalUsage fetched f2 : List Consumption) :
    (historicalUsage ≠ [] →
      (initializeTotalUsage st historicalUsage).meter = sumKWh historicalUsage) ∧
    ((∀ c ∈ historicalUsage, 0 ≤ c.kWh) → st.meter = 0 →
      st.meter ≤ (initializeTotalUsage st historicalUsage).meter) ∧
    ((∀ c ∈ fetched, 0 ≤ c.kWh) →
      st.meter ≤ (updateTotalEnergyConsumption st now fetched).1.meter) ∧
    (∀ last, st.lastFetchedHour = some last → startOfHour last = last →
      (∀ c ∈ fetched, (incrementalRange last now).1 ≤ c.date ∧ startOfHour c.date = c.date) →
      (∀ c ∈ fetched, last < c.date) ∧
      (last ≠ startOfHour now → fetched ≠ [] →
        fetched.Pairwise (fun a b => a.date < b.date) →
        (∀ last1, (updateTotalEnergyConsumption st now fetched).1.lastFetchedHour = some last1 →
          (∀ c ∈ f2, (incrementalRange last1 now2).1 ≤ c.date ∧
            startOfHour c.date = c.date)) →
        ∀ c1 ∈ fetched, ∀ c2 ∈ f2, c1.date < c2.date)) := by
  refine ⟨?_, ?_, ?_, ?_⟩
  · intro hne
    rw [initializeTotalUsage, if_neg hne]
  · intro hpos hzero
    rw [initializeTotalUsage]
    split
    · exact le_refl _
    · simp only [hzero]
      exact sumKWh_nonneg _ hpos
  · intro hpos
    cases hl : st.lastFetchedHour with
    | none => simp [updateTotalEnergyConsumption, hl]
    | some last =>
      by_cases hnow : last = startOfHour now
      · simp [updateTotalEnergyConsumption, hl, hnow]
      · by_cases hf : fetched = []
        · simp [updateTotalEnergyConsumption, hl, hnow, hf]
        · simp only [updateTotalEnergyConsumption, hl]
          rw [if_neg hnow, if_neg hf]
          have := sumKWh_nonneg fetched hpos
          show st.meter ≤ st.meter + sumKWh fetched
          linarith
  · intro last hl hal hrange
    have hgt : ∀ c ∈ fetched, last < c.date := by
      intro c hc
      have h1 := (hrange c hc).1
      rw [incrementalRange] at h1
      simp only at h1
      rw [aligned_add_hour last hal] at h1
      have := millisPerHour_pos
      omega
    refine ⟨hgt, ?_⟩
    intro hne hfne hsorted hrange2 c1 hc1 c2 hc2
    have hstep : (updateTotalEnergyConsumption st now fetched).1.lastFetchedHour =
        fetched.getLast?.map Consumption.date := by
      simp only [updateTotalEnergyConsumption, hl]
      rw [if_neg hne, if_neg hfne]
    have hgl : fetched.getLast?.map Consumption.date =
        some ((fetched.getLast hfne).date) := by
      rw [List.getLast?_eq_getLast fetched hfne]
      rfl
    have hlast1 := hrange2 ((fetched.getLast hfne).date) (by rw [hstep, hgl])
    have h2 := (hlast1 c2 hc2).1
    rw [incrementalRange] at h2
    simp only at h2
    have halig : startOfHour ((fetched.getLast hfne).date) = (fetched.getLast hfne).date :=
      (hrange (fetched.getLast hfne) (List.getLast_mem hfne)).2
    rw [aligned_add_hour _ halig] at h2
    have hle : c1.date ≤ (fetched.getLast hfne).date :=
      date_le_getLast fetched hsorted hfne c1 hc1
    have := millisPerHour_pos
    omega

/-- C4 witness: concrete backfill and two consecutive range-respecting
top-ups with non-negative deltas — the meter never decreases, the folded
hours lie strictly after the previous watermark and the two fetches touch
disjoint hours. -/
theorem meter_monotone_no_double_fold_witness :
    (([⟨0, 1⟩] : List Consumption) ≠ [] ∧
      (initializeTotalUsage ⟨0, none⟩ [⟨0, 1⟩]).meter = sumKWh [⟨0, 1⟩]) ∧
    ((⟨3, some 0⟩ : DeviceState).meter ≤
      (updateTotalEnergyConsumption ⟨3, some 0⟩ 7200000 [⟨3600000, 2⟩]).1.meter) ∧
    (∀ c ∈ ([⟨3600000, 2⟩] : List Consumption), (0 : Int) < c.date) ∧
    (∀ c1 ∈ ([⟨3600000, 2⟩] : List Consumption),
      ∀ c2 ∈ ([⟨7200000, 4⟩] : List Consumption), c1.date < c2.date) := by
  have h := meter_monotone_no_double_fold ⟨3, some 0⟩ 7200000 7200000
    [⟨0, 1⟩] [⟨3600000, 2⟩] [⟨7200000, 4⟩]
  have hrange : ∀ c ∈ ([⟨3600000, 2⟩] : List Consumption),
      (incrementalRange 0 7200000).1 ≤ c.date ∧ startOfHour c.date = c.date := by
    intro c hc
    simp only [List.mem_singleton] at hc
    subst hc
    constructor <;> decide
  have h4 := h.2.2.2 0 rfl (by decide) hrange
  refine ⟨⟨by simp, h.1 (by simp)⟩, h.2.2.1 ?_, h4.1, ?_⟩
  · intro c hc
    simp only [List.mem_singleton] at hc
    subst hc
    norm_num
  · refine h4.2 (by decide) (by simp) (by simp) ?_
    intro last1 hlast1
    have hl1 : last1 = 3600000 := by
      rw [updateTotalEnergyConsumption] at hlast1
      simp only [if_neg (by decide : ¬((0 : Int) = startOfHour 7200000)),
        if_neg (by simp : ¬([⟨3600000, 2⟩] : List Consumption) = [])] at hlast1
      simp at hlast1
      omega
    subst hl1
    intro c hc
    simp only [List.mem_singleton] at hc
    subst hc
    constructor <;> decide

/-- C5: in a pricing update with a current price present, the
at-lowest-today and at-highest-today triggers are dispatched if and only
if their epsilon predicate holds against the series extremes, while the
eight other triggers (dynamic-window below/above average, dynamic-window
at lowest/highest, whole-day below/above average, among lowest, among
highest) are always dispatched. -/
theorem updatePricingInformation_dispatch_policy (retrievedPrices : List Price) (now : Int)
    (h : retrievedPrices ≠ []) (current : Price)
    (hc : getPriceAtInstant ⟨retrievedPrices, h⟩ now = some current) :
    (TriggerId.atLowestToday ∈ dispatchedOf (updatePricingInformation retrievedPrices now) ↔
      isPriceAtLowest current.netPrice (getLowest ⟨retrievedPrices, h⟩) = true) ∧
    (TriggerId.atHighestToday ∈ dispatchedOf (updatePricingInformation retrievedPrices now) ↔
      isPriceAtHighest current.netPrice (getHighest ⟨retrievedPrices, h⟩) = true) ∧
    (∀ t, t ∈ ([.belowAvg, .aboveAvg, .atLowest, .atHighest,
        .belowAvgToday, .aboveAvgToday, .amongLowest, .amongHighest] : List TriggerId) →
      t ∈ dispatchedOf (updatePricingInformation retrievedPrices now)) := by
  have hres : updatePricingInformation retrievedPrices now =
      .updated (round2 current.netPrice) (round2 (getHighest ⟨retrievedPrices, h⟩))
        (round2 (getLowest ⟨retrievedPrices, h⟩))
        (([.belowAvg, .aboveAvg, .atLowest, .atHighest,
           .belowAvgToday, .aboveAvgToday, .amongLowest, .amongHighest]
          ++ (if isPriceAtLowest current.netPrice (getLowest ⟨retrievedPrices, h⟩)
              then [.atLowestToday] else []))
         ++ (if isPriceAtHighest current.netPrice (getHighest ⟨retrievedPrices, h⟩)
             then [.atHighestToday] else [])) := by
    rw [updatePricingInformation, dif_neg h]
    simp only [hc]
  rw [hres, dispatchedOf]
  refine ⟨?_, ?_, ?_⟩
  · by_cases h1 : isPriceAtLowest current.netPrice (getLowest ⟨retrievedPrices, h⟩) = true <;>
      by_cases h2 : isPriceAtHighest current.netPrice (getHighest ⟨retrievedPrices, h⟩) = true <;>
      simp [h1, h2]
  · by_cases h1 : isPriceAtLowest current.netPrice (getLowest ⟨retrievedPrices, h⟩) = true <;>
      by_cases h2 : isPriceAtHighest current.netPrice (getHighest ⟨retrievedPrices, h⟩) = true <;>
      simp [h1, h2]
  · intro t ht
    exact List.mem_append_left _ (List.mem_append_left _ ht)

/-- C5 witness: in a two-point series at hours zero and one with the
current instant in hour zero, the current price equals the lowest, so the
at-lowest-today trigger fires, the at-highest-today trigger does not, and
the eight remaining triggers are all dispatched. -/
theorem updatePricingInformation_dispatch_policy_witness :
    (([⟨0, 10⟩, ⟨3600000, 20⟩] : List Price) ≠ [] ∧
      getPriceAtInstant ⟨[⟨0, 10⟩, ⟨3600000, 20⟩], by simp⟩ 100 = some ⟨0, 10⟩) ∧
    (TriggerId.atLowestToday ∈
        dispatchedOf (updatePricingInformation [⟨0, 10⟩, ⟨3600000, 20⟩] 100) ↔
      isPriceAtLowest (10 : ℚ) (getLowest ⟨[⟨0, 10⟩, ⟨3600000, 20⟩], by simp⟩) = true) ∧
    (TriggerId.atHighestToday ∈
        dispatchedOf (updatePricingInformation [⟨0, 10⟩, ⟨3600000, 20⟩] 100) ↔
      isPriceAtHighest (10 : ℚ) (getHighest ⟨[⟨0, 10⟩, ⟨3600000, 20⟩], by simp⟩) = true) ∧
    (∀ t, t ∈ ([.belowAvg, .aboveAvg, .atLowest, .atHighest,
        .belowAvgToday, .aboveAvgToday, .amongLowest, .amongHighest] : List TriggerId) →
      t ∈ dispatchedOf (updatePricingInformation [⟨0, 10⟩, ⟨3600000, 20⟩] 100)) := by
  have hc : getPriceAtInstant ⟨[⟨0, 10⟩, ⟨3600000, 20⟩], by simp⟩ 100 = some ⟨0, 10⟩ := rfl
  have h := updatePricingInformation_dispatch_policy [⟨0, 10⟩, ⟨3600000, 20⟩] 100
    (by simp) ⟨0, 10⟩ hc
  exact ⟨⟨by simp, hc⟩, h.1, h.2.1, h.2.2⟩

/-- C6: when no point of the retrieved series carries the current hour,
`getPriceAtInstant` returns `none` exactly when no timestamp matches, the
pricing update aborts with the missing-current outcome, and no trigger is
dispatched and no price capability written in that cycle. -/
theorem updatePricingInformation_missing_current_aborts (retrievedPrices : List Price)
    (now : Int) (h : retrievedPrices ≠ [])
    (hc : getPriceAtInstant ⟨retrievedPrices, h⟩ now = none) :
    (∀ pt ∈ retrievedPrices, pt.date ≠ startOfHour now) ∧
    updatePricingInformation retrievedPrices now = .missingCurrentPrice ∧
    dispatchedOf (updatePricingInformation retrievedPrices now) = [] := by
  have hres : updatePricingInformation retrievedPrices now = .missingCurrentPrice := by
    rw [updatePricingInformation, dif_neg h]
    simp only [hc]
  refine ⟨?_, hres, by rw [hres]; rfl⟩
  intro pt hpt
  have := List.find?_eq_none.mp hc pt hpt
  simpa using this

/-- C6 witness: a series holding only the hour-zero point, queried at
hour two, has no current price; the update aborts and dispatches
nothing. -/
theorem updatePricingInformation_missing_current_aborts_witness :
    (([⟨0, 10⟩] : List Price) ≠ [] ∧
      getPriceAtInstant ⟨[⟨0, 10⟩], by simp⟩ 7200000 = none) ∧
    (∀ pt ∈ ([⟨0, 10⟩] : List Price), pt.date ≠ startOfHour 7200000) ∧
    updatePricingInformation [⟨0, 10⟩] 7200000 = .missingCurrentPrice ∧
    dispatchedOf (updatePricingInformation [⟨0, 10⟩] 7200000) = [] := by
  have hc : getPriceAtInstant ⟨[⟨0, 10⟩], by simp⟩ 7200000 = none := rfl
  have h := updatePricingInformation_missing_current_aborts [⟨0, 10⟩] 7200000 (by simp) hc
  exact ⟨⟨by simp, hc⟩, h⟩

/-- Measure justifying the termination of the chunk loop: each iteration
advances `currentStart` to `min(currentStart + 1, endDate)`, shrinking
the ceiling of the remaining span. -/
theorem chunks_measure_lt (s e : ℚ) (h : s < e) :
    (⌈e - min (s + 1) e⌉ : ℤ).toNat < (⌈e - s⌉ : ℤ).toNat := by
  rcases le_or_lt (s + 1) e with hle | hlt
  · rw [min_eq_left hle]
    have h1 : e - (s + 1) = e - s - 1 := by ring
    have h3 : (0 : ℤ) < ⌈e - s⌉ := Int.ceil_pos.mpr (by linarith)
    have h4 : ⌈e - (s + 1)⌉ = ⌈e - s⌉ - 1 := by rw [h1, Int.ceil_sub_one]
    omega
  · rw [min_eq_right (le_of_lt hlt)]
    have h3 : (0 : ℤ) < ⌈e - s⌉ := Int.ceil_pos.mpr (by linarith)
    have h4 : ⌈e - e⌉ = (0 : ℤ) := by simp
    omega

theorem consumptionChunks_of_lt (s e : ℚ) (h : s < e) :
    consumptionChunks s e =
      (s, min (s + 1) e) :: consumptionChunks (min (s + 1) e) e := by
  rw [consumptionChunks, dif_pos h]

theorem consumptionChunks_of_ge (s e : ℚ) (h : ¬s < e) : consumptionChunks s e = [] := by
  rw [consumptionChunks, dif_neg h]

theorem consumptionChunks_snd (s e : ℚ) :
    ∀ p ∈ consumptionChunks s e, p.2 = min (p.1 + 1) e := by
  by_cases h : s < e
  · rw [consumptionChunks_of_lt s e h]
    intro p hp
    rcases List.mem_cons.mp hp with rfl | hp
    · rfl
    · exact consumptionChunks_snd (min (s + 1) e) e p hp
  · rw [consumptionChunks_of_ge s e h]
    intro p hp
    cases hp
termination_by (⌈e - s⌉ : ℤ).toNat
decreasing_by exact chunks_measure_lt s e h

theorem consumptionChunks_chain (s e : ℚ) :
    List.Chain' (fun p q : ℚ × ℚ => p.2 = q.1) (consumptionChunks s e) := by
  by_cases h : s < e
  · rw [consumptionChunks_of_lt s e h]
    by_cases h2 : min (s + 1) e < e
    · rw [consumptionChunks_of_lt _ e h2]
      refine List.Chain'.cons rfl ?_
      rw [← consumptionChunks_of_lt _ e h2]
      exact consumptionChunks_chain (min (s + 1) e) e
    · rw [consumptionChunks_of_ge _ e h2]
      simp
  · rw [consumptionChunks_of_ge s e h]
    exact List.chain'_nil
termination_by (⌈e - s⌉ : ℤ).toNat
decreasing_by exact chunks_measure_lt s e h

theorem consumptionChunks_getLast (s e : ℚ) (h : s < e) :
    (consumptionChunks s e).getLast?.map Prod.snd = some e := by
  rw [consumptionChunks_of_lt s e h]
  by_cases h2 : min (s + 1) e < e
  · rw [consumptionChunks_of_lt _ e h2, List.getLast?_cons_cons,
      ← consumptionChunks_of_lt _ e h2]
    exact consumptionChunks_getLast (min (s + 1) e) e h2
  · have hmin : min (s + 1) e = e := by
      rcases min_choice (s + 1) e with hc | hc
      · rw [hc] at h2 ⊢
        have := min_le_right (s + 1) e
        rw [hc] at this
        linarith [not_lt.mp h2]
      · exact hc
    rw [consumptionChunks_of_ge _ e h2]
    simp [hmin]
termination_by (⌈e - s⌉ : ℤ).toNat
decreasing_by exact chunks_measure_lt s e h

theorem runChunks_all_ok (fetch : ℚ → ℚ → Except String (List Consumption))
    (g : ℚ × ℚ → List Consumption) :
    ∀ l : List (ℚ × ℚ), (∀ p ∈ l, fetch p.1 p.2 = .ok (g p)) →
      runChunks fetch l = .ok (l.map g).flatten := by
  intro l
  induction l with
  | nil => intro _; simp [runChunks]
  | cons p rest ih =>
    intro hall
    obtain ⟨a, b⟩ := p
    have ha := hall (a, b) (List.mem_cons_self _ _)
    simp only [runChunks, ha, ih (fun q hq => hall q (List.mem_cons_of_mem _ hq))]
    simp

theorem runChunks_error (fetch : ℚ → ℚ → Except String (List Consumption))
    (err : String) (a b : ℚ) (l₂ : List (ℚ × ℚ)) :
    ∀ l₁ : List (ℚ × ℚ), (∀ p ∈ l₁, ∃ v, fetch p.1 p.2 = .ok v) →
      fetch a b = .error err →
      runChunks fetch (l₁ ++ (a, b) :: l₂) = .error err := by
  intro l₁
  induction l₁ with
  | nil =>
    intro _ herr
    simp only [List.nil_append, runChunks, herr]
  | cons p rest ih =>
    intro hok herr
    obtain ⟨x, y⟩ := p
    obtain ⟨v, hv⟩ := hok (x, y) (List.mem_cons_self _ _)
    simp only [List.cons_append, runChunks, hv]
    have hr := ih (fun q hq => hok q (List.mem_cons_of_mem _ hq)) herr
    simp only [List.append_eq] at hr ⊢
    rw [hr]

theorem consumptionChunks_two_and_half (s : ℚ) :
    consumptionChunks s (s + 5 / 2) = [(s, s + 1), (s + 1, s + 2), (s + 2, s + 5 / 2)] := by
  have hmin1 : min (s + 1) (s + 5 / 2) = s + 1 := min_eq_left (by linarith)
  have hmin2 : min (s + 1 + 1) (s + 5 / 2) = s + 2 := by
    rw [min_eq_left (by linarith)]
    ring
  have hmin3 : min (s + 2 + 1) (s + 5 / 2) = s + 5 / 2 := min_eq_right (by linarith)
  rw [consumptionChunks_of_lt _ _ (by linarith), hmin1,
    consumptionChunks_of_lt _ _ (by linarith), hmin2,
    consumptionChunks_of_lt _ _ (by linarith), hmin3,
    consumptionChunks_of_ge _ _ (by linarith)]

theorem consumptionChunks_example :
    consumptionChunks 2023 (4049 / 2) = [(2023, 2024), (2024, 4049 / 2)] := by
  have hmin1 : min ((2023 : ℚ) + 1) (4049 / 2) = 2024 := by
    rw [min_eq_left (by norm_num)]
    norm_num
  have hmin2 : min ((2024 : ℚ) + 1) (4049 / 2) = 4049 / 2 := min_eq_right (by norm_num)
  rw [consumptionChunks_of_lt _ _ (by norm_num), hmin1,
    consumptionChunks_of_lt _ _ (by norm_num), hmin2,
    consumptionChunks_of_ge _ _ (by norm_num)]

/-- C3: `getEnergyConsumption` issues a single upstream call when the
span is at most one year; otherwise it walks consecutive chunks whose
first starts at the overall start, each ending at
`min(chunkStart + 1 year, overallEnd)` (hence none longer than a year),
each next starting where the previous ended and the last ending at the
overall end, concatenating the results in order; a two-and-a-half-year
span makes exactly three chunks, the span 2023-01-01 to 2024-07-01
(\x5b2023, 4049/2\x5d in year coordinates) makes exactly the chunks
\x5b2023, 2024) and \x5b2024, 2024.5), and any chunk failure after
successful earlier chunks propagates that error. -/
theorem getEnergyConsumption_chunking (fetch : ℚ → ℚ → Except String (List Consumption))
    (s e : ℚ) (g : ℚ × ℚ → List Consumption) (err : String)
    (l₁ l₂ : List (ℚ × ℚ)) (a b : ℚ) :
    (e - s ≤ 1 → getEnergyConsumption fetch s e = fetch s e) ∧
    (1 < e - s →
      getEnergyConsumption fetch s e = runChunks fetch (consumptionChunks s e) ∧
      (consumptionChunks s e).head?.map Prod.fst = some s ∧
      (consumptionChunks s e).getLast?.map Prod.snd = some e) ∧
    (∀ p ∈ consumptionChunks s e, p.2 = min (p.1 + 1) e ∧ p.2 - p.1 ≤ 1) ∧
    List.Chain' (fun p q : ℚ × ℚ => p.2 = q.1) (consumptionChunks s e) ∧
    (consumptionChunks s (s + 5 / 2)).length = 3 ∧
    consumptionChunks 2023 (4049 / 2) = [(2023, 2024), (2024, 4049 / 2)] ∧
    ((∀ p ∈ consumptionChunks s e, fetch p.1 p.2 = .ok (g p)) →
      runChunks fetch (consumptionChunks s e) =
        .ok ((consumptionChunks s e).map g).flatten) ∧
    ((∀ p ∈ l₁, ∃ v, fetch p.1 p.2 = .ok v) → fetch a b = .error err →
      runChunks fetch (l₁ ++ (a, b) :: l₂) = .error err) := by
  refine ⟨?_, ?_, ?_, consumptionChunks_chain s e, ?_, consumptionChunks_example,
    runChunks_all_ok fetch g (consumptionChunks s e),
    runChunks_error fetch err a b l₂ l₁⟩
  · intro h
    rw [getEnergyConsumption, if_pos h]
  · intro h
    have hlt : s < e := by linarith
    refine ⟨?_, ?_, consumptionChunks_getLast s e hlt⟩
    · rw [getEnergyConsumption, if_neg (by linarith)]
    · rw [consumptionChunks_of_lt s e hlt]
      rfl
  · intro p hp
    have h := consumptionChunks_snd s e p hp
    refine ⟨h, ?_⟩
    have : p.2 ≤ p.1 + 1 := by
      rw [h]
      exact min_le_left _ _
    linarith
  · rw [consumptionChunks_two_and_half s]
    rfl

/-- C3 witness: a half-year span is served by the single direct call; for
the 2023-01-01 to 2024-07-01 span the update runs over exactly the two
expected chunks; all-success runs concatenate, and a failing chunk after
a successful one propagates its error. -/
theorem getEnergyConsumption_chunking_witness :
    ((4049 / 2 : ℚ) - 2023 ≤ 1 → False) ∧
    getEnergyConsumption (fun _ _ => .ok [⟨0, 1⟩]) 2023 (4049 / 2) =
      runChunks (fun _ _ => .ok [⟨0, 1⟩]) (consumptionChunks 2023 (4049 / 2)) ∧
    (consumptionChunks 2023 (4049 / 2)).head?.map Prod.fst = some 2023 ∧
    (consumptionChunks 2023 (4049 / 2)).getLast?.map Prod.snd = some (4049 / 2) ∧
    getEnergyConsumption (fun _ _ => .ok [⟨0, 1⟩]) 0 (1 / 2) =
      (fun (_ _ : ℚ) => (.ok [⟨0, 1⟩] : Except String (List Consumption))) 0 (1 / 2) ∧
    runChunks (fun _ _ => .ok [⟨0, 1⟩]) (consumptionChunks 2023 (4049 / 2)) =
      .ok (((consumptionChunks 2023 (4049 / 2)).map (fun _ => [⟨0, 1⟩])).flatten) ∧
    runChunks (fun x _ => if x = 0 then .error "boom" else .ok [])
      ([((1 : ℚ), (2 : ℚ))] ++ ((0 : ℚ), (1 : ℚ)) :: []) = .error "boom" := by
  have h1 := (getEnergyConsumption_chunking (fun _ _ => .ok [⟨0, 1⟩]) 2023 (4049 / 2)
    (fun _ => [⟨0, 1⟩]) "boom" [] [] 0 1).2.1 (by norm_num)
  have h2 := (getEnergyConsumption_chunking (fun _ _ => .ok [⟨0, 1⟩]) 0 (1 / 2)
    (fun _ => [⟨0, 1⟩]) "boom" [] [] 0 1).1 (by norm_num)
  have h3 := (getEnergyConsumption_chunking (fun _ _ => .ok [⟨0, 1⟩]) 2023 (4049 / 2)
    (fun _ => [⟨0, 1⟩]) "boom" [] [] 0 1).2.2.2.2.2.2.1 (fun p _ => rfl)
  have h4 := (getEnergyConsumption_chunking
    (fun x _ => if x = 0 then .error "boom" else .ok []) 2023 (4049 / 2)
    (fun _ => []) "boom" [((1 : ℚ), (2 : ℚ))] [] 0 1).2.2.2.2.2.2.2
    (by
      intro p hp
      simp only [List.mem_singleton] at hp
      subst hp
      exact ⟨[], by norm_num⟩)
    (by norm_num)
  exact ⟨by norm_num, h1.1, h1.2.1, h1.2.2, h2, h3, h4⟩

theorem processSubmits_length_le (ops : List Nat) :
    ∀ st : LimiterState, (processSubmits st ops).2.length ≤ st.tokens := by
  induction ops with
  | nil => intro st; simp [processSubmits]
  | cons op rest ih =>
    intro st
    simp only [processSubmits]
    by_cases h : 0 < st.tokens ∧ st.queue = []
    · have hr := ih { st with tokens := st.tokens - 1 }
      simp only [submitStep, if_pos h, List.length_append] at hr ⊢
      simp only [List.length_singleton]
      omega
    · have hr := ih { st with queue := st.queue ++ [op] }
      simp only [submitStep, if_neg h, List.length_append] at hr ⊢
      simp only [List.length_nil]
      omega

theorem processSubmits_zero_tokens (ops : List Nat) :
    ∀ q : List Nat, processSubmits ⟨0, q⟩ ops = (⟨0, q ++ ops⟩, []) := by
  induction ops with
  | nil => intro q; simp [processSubmits]
  | cons op rest ih =>
    intro q
    simp only [processSubmits, submitStep]
    rw [if_neg (by simp)]
    simp only [ih (q ++ [op])]
    simp

theorem processSubmits_empty_queue (ops : List Nat) :
    ∀ t : Nat, processSubmits ⟨t, []⟩ ops =
      (⟨t - ops.length, ops.drop t⟩, ops.take t) := by
  induction ops with
  | nil => intro t; simp [processSubmits]
  | cons op rest ih =>
    intro t
    cases t with
    | zero =>
      simp only [processSubmits, submitStep]
      rw [if_neg (by simp)]
      simp only [List.nil_append, processSubmits_zero_tokens rest [op]]
      simp
    | succ t0 =>
      simp only [processSubmits, submitStep]
      rw [if_pos (by constructor <;> simp)]
      simp only [Nat.add_sub_cancel, ih t0]
      simp only [List.take_succ_cons, List.drop_succ_cons, List.length_cons]
      have ht : t0 + 1 - (rest.length + 1) = t0 - rest.length := by omega
      rw [ht]
      simp

/-- C7: no more than `MAX_REQUESTS_PER_MINUTE` (50) wrapped operations
begin within any fixed refill window of the limiter; when 51 operations
are scheduled within one window of a fresh limiter, exactly the first 50
begin in that window (in FIFO order), the 51st is queued rather than
failed, and it begins first at the next refill. -/
theorem rateLimiter_fixed_window (st : LimiterState) (arrivals ops : List Nat) :
    (windowRun maxRequestsPerMinute st arrivals).2.length ≤ maxRequestsPerMinute ∧
    (ops.length = maxRequestsPerMinute + 1 →
      processSubmits ⟨maxRequestsPerMinute, []⟩ ops =
        (⟨0, ops.drop maxRequestsPerMinute⟩, ops.take maxRequestsPerMinute) ∧
      (ops.take maxRequestsPerMinute).length = maxRequestsPerMinute ∧
      (ops.drop maxRequestsPerMinute).length = 1 ∧
      windowRun maxRequestsPerMinute ⟨0, ops.drop maxRequestsPerMinute⟩ [] =
        (⟨maxRequestsPerMinute - 1, []⟩, ops.drop maxRequestsPerMinute)) := by
  constructor
  · have h1 : (st.queue.take maxRequestsPerMinute).length ≤ maxRequestsPerMinute := by
      simp [List.length_take]
    have h2 := processSubmits_length_le arrivals
      ⟨maxRequestsPerMinute - (st.queue.take maxRequestsPerMinute).length,
        st.queue.drop maxRequestsPerMinute⟩
    simp only [windowRun, refillStep, List.length_append]
    simp only at h2
    omega
  · intro hlen
    have hfirst := processSubmits_empty_queue ops maxRequestsPerMinute
    have htake : (ops.take maxRequestsPerMinute).length = maxRequestsPerMinute := by
      rw [List.length_take, hlen]
      simp
    have hdrop : (ops.drop maxRequestsPerMinute).length = 1 := by
      rw [List.length_drop, hlen]
      simp
    refine ⟨by rw [hfirst, hlen]; simp, htake, hdrop, ?_⟩
    have htk : (ops.drop maxRequestsPerMinute).take maxRequestsPerMinute =
        ops.drop maxRequestsPerMinute := by
      apply List.take_of_length_le
      rw [hdrop]
      norm_num [maxRequestsPerMinute]
    have hdr : (ops.drop maxRequestsPerMinute).drop maxRequestsPerMinute = [] := by
      apply List.drop_eq_nil_of_le
      rw [hdrop]
      norm_num [maxRequestsPerMinute]
    simp only [windowRun, refillStep, htk, hdr, hdrop, processSubmits]
    simp

/-- C7 witness: 51 distinct operations submitted within one window of the
fresh limiter — the first 50 begin, the 51st begins only at the next
refill. -/
theorem rateLimiter_fixed_window_witness :
    ((List.range 51).length = maxRequestsPerMinute + 1) ∧
    processSubmits ⟨maxRequestsPerMinute, []⟩ (List.range 51) =
      (⟨0, (List.range 51).drop maxRequestsPerMinute⟩,
        (List.range 51).take maxRequestsPerMinute) ∧
    ((List.range 51).drop maxRequestsPerMinute).length = 1 ∧
    windowRun maxRequestsPerMinute ⟨0, (List.range 51).drop maxRequestsPerMinute⟩ [] =
      (⟨maxRequestsPerMinute - 1, []⟩, (List.range 51).drop maxRequestsPerMinute) := by
  have hlen : (List.range 51).length = maxRequestsPerMinute + 1 := by
    simp [maxRequestsPerMinute]
  have h := (rateLimiter_fixed_window ⟨0, []⟩ [] (List.range 51)).2 hlen
  exact ⟨hlen, h.1, h.2.2.1, h.2.2.2⟩

end Ostrom
